import Mathlib

/-!
Verification development for the zk-auction repository.

We shallowly embed the clearing-price engines (the `bid-reveal.go` variant
and the `part_000`/`part_001` variant, both Go package `bidreveal`) and the
bit-correctness NIZK OR-proof subsystem (Go package `client`) over `Nat`
with explicit `% p` arithmetic, mirroring the `math/big` calls of the source.

Randomness (`utils.RandBigInt` over `crypto/rand`) is modeled by passing the
drawn values as explicit arguments.  The SHA-256 compression inside
`computeChallenge` is modeled as a function parameter over the exact byte
stream the Go code feeds to the hasher; no property specific to SHA-256 is
ever used.
-/

namespace utils

/-- Go `utils.MulMod`: `new(big.Int).Mul(a, b)` followed by `Mod`. -/
def MulMod (a b m : Nat) : Nat := a * b % m

/-- Square-and-multiply core of modular exponentiation, with a structural
fuel argument (any fuel at least the exponent suffices, see `powModAux_eq`). -/
def powModAux (m : Nat) : Nat → Nat → Nat → Nat
  | _, _, 0 => 1 % m
  | _, 0, _ + 1 => 1 % m
  | b, fuel + 1, e + 1 =>
    let h := powModAux m (b * b % m) fuel ((e + 1) / 2)
    if (e + 1) % 2 = 1 then h * b % m else h

/-- Go `new(big.Int).Exp(b, e, m)`: modular exponentiation, computed by
square-and-multiply with a reduction after every step, like `math/big`. -/
def PowMod (b e m : Nat) : Nat := powModAux m b e e

/-- Go `big.Int.ModInverse b m` for the prime moduli used by this repository,
realized by Fermat's little theorem: `b ^ (m - 2) % m` is the multiplicative
inverse of `b` whenever `m` is prime and `b` is a unit mod `m`, which is the
only situation in which the source ever calls it. -/
def ModInverse (b m : Nat) : Nat := PowMod b (m - 2) m

/-- Go `utils.DivMod`: multiply by the modular inverse. -/
def DivMod (a b m : Nat) : Nat := MulMod a (ModInverse b m) m

/-- Go `utils.BitsToInt`: big-endian accumulation, `result <<= 1` then
`result |= 1` when the entry equals `1` (any other entry contributes `0`). -/
def BitsToInt (bits : List Nat) : Nat :=
  bits.foldl (fun r bit => if bit = 1 then 2 * r + 1 else 2 * r) 0

/-- Go `utils.IntToBits value bitLength`: fills index `bitLength-1` down to
`0` with `value & 1`, shifting `value` right each step, so the result is the
big-endian `bitLength`-bit string of `value`, discarding higher-order bits. -/
def IntToBits : Nat → Nat → List Nat
  | _, 0 => []
  | v, l + 1 => IntToBits (v / 2) l ++ [v % 2]

end utils

namespace protocol

/-- The aggregated product `E_j = prod_i e_ij mod p` computed by the loop of
`HasZeroAtBitPosition` (both Go variants share this loop body): an active
bidder whose bit is 0 publishes `T_i[j]^(s_ij)`, everyone else (bit 1, or an
already-eliminated bidder) publishes `T_i[j]^(x_ij)`; `secrets i j` is the
pair `(x_ij, s_ij)` drawn by `utils.RandBigInt`. -/
def eProductAt (p : Nat) (tijs : List (List Nat)) (isLost : List Bool)
    (binaryBids : List (List Nat)) (secrets : Nat → Nat → Nat × Nat) (j : Nat) : Nat :=
  (List.range binaryBids.length).foldl
    (fun acc i =>
      let b := (binaryBids.getD i []).getD j 0
      let t := (tijs.getD i []).getD j 0
      let e := if b = 0 ∧ isLost.getD i false = false
        then utils.PowMod t (secrets i j).2 p
        else utils.PowMod t (secrets i j).1 p
      utils.MulMod acc e p)
    1

/-- The `isLost` update both variants perform when a round reveals a zero bit:
every bidder whose bit at position `j` is 1 is marked lost, the rest keep
their flag. -/
def eliminate (binaryBids : List (List Nat)) (isLost : List Bool) (j : Nat) : List Bool :=
  (List.range binaryBids.length).map
    fun i => if (binaryBids.getD i []).getD j 0 = 1 then true else isLost.getD i false

end protocol

namespace V2

/-- part_000 `systemParams`: `p = 2039`, `q = 1019`, `g = 9` (the second
generator `h = 461` is not used by the engine). -/
def P : Nat := 2039

def Q : Nat := 1019

def G : Nat := 9

/-- The broadcast matrix `PubXs` with `X_ij = g^(x_ij) mod p`, as produced by
`NewBidder` (part_001) and collected by `DetermineClearingPrice` (part_000). -/
def publicXs (secrets : Nat → Nat → Nat × Nat) (n l : Nat) : List (List Nat) :=
  (List.range n).map fun i => (List.range l).map fun j => utils.PowMod G (secrets i j).1 P

/-- part_001 `(b *Bidder) ComputeTi`, parameterized by the modulus `p` that
the Go code reads from the package-level `systemParams`:
`T_i[j] = DivMod(preProd, postProd, p)` with `preProd` the product of
`X[k][j]` for `k < id` and `postProd` the product for `id < k < n`. -/
def ComputeTi (p : Nat) (pubXs : List (List Nat)) (id n l : Nat) : List Nat :=
  (List.range l).map fun j =>
    let preProd := (List.range id).foldl
      (fun acc k => utils.MulMod acc ((pubXs.getD k []).getD j 0) p) 1
    let postProd := (List.range' (id + 1) (n - (id + 1))).foldl
      (fun acc k => utils.MulMod acc ((pubXs.getD k []).getD j 0) p) 1
    utils.DivMod preProd postProd p

/-- part_000 `HasZeroAtBitPosition`: returns the boolean together with the
updated `isLost` flags (the Go code mutates `bidders[i].IsLost` in place).
This variant treats `eProduct != 1` as "some active bidder has a zero bit". -/
def HasZeroAtBitPosition (tijs : List (List Nat)) (isLost : List Bool)
    (binaryBids : List (List Nat)) (secrets : Nat → Nat → Nat × Nat) (j : Nat) :
    Bool × List Bool :=
  if binaryBids.length = 0 then (false, isLost)
  else
    let ep := protocol.eProductAt P tijs isLost binaryBids secrets j
    if ep ≠ 1 then (true, protocol.eliminate binaryBids isLost j)
    else (false, isLost)

/-- The round loop of part_000 `DetermineClearingPrice`: processes bit
positions `0 .. bitLength-1` in order, accumulating the clearing-price bits
and the `isLost` flags (initially all `false`, from `NewBidder`). -/
def run (bids : List Nat) (bitLength : Nat) (secrets : Nat → Nat → Nat × Nat) :
    List Nat × List Bool :=
  let n := bids.length
  let binaryBids := bids.map fun b => utils.IntToBits b bitLength
  let pubXs := publicXs secrets n bitLength
  let tijs := (List.range n).map fun i => ComputeTi P pubXs i n bitLength
  (List.range bitLength).foldl
    (fun acc j =>
      let r := HasZeroAtBitPosition tijs acc.2 binaryBids secrets j
      (acc.1 ++ [if r.1 then 0 else 1], r.2))
    ([], List.replicate n false)

/-- part_000 `DetermineClearingPrice bids bitLength` (randomness explicit). -/
def DetermineClearingPrice (bids : List Nat) (bitLength : Nat)
    (secrets : Nat → Nat → Nat × Nat) : Nat :=
  if bids.length = 0 then 0
  else utils.BitsToInt (run bids bitLength secrets).1

/-- The engine's `isLost` state after the first `r` rounds of
`DetermineClearingPrice bids bitLength` (so `lostAfter .. 0` is the initial
all-`false` state and `lostAfter .. bitLength` the final one). -/
def lostAfter (bids : List Nat) (bitLength : Nat) (secrets : Nat → Nat → Nat × Nat)
    (r : Nat) : List Bool :=
  let n := bids.length
  let binaryBids := bids.map fun b => utils.IntToBits b bitLength
  let pubXs := publicXs secrets n bitLength
  let tijs := (List.range n).map fun i => ComputeTi P pubXs i n bitLength
  (List.range r).foldl
    (fun lost j => (HasZeroAtBitPosition tijs lost binaryBids secrets j).2)
    (List.replicate n false)

end V2

namespace V1

/-- bid-reveal.go `systemParams`: `p = 23`, `q = 11`, `g = 2`. -/
def P : Nat := 23

def Q : Nat := 11

def G : Nat := 2

/-- The `publicBitPairs[i][j].X = g^(x_ij) mod p` computed inside
bid-reveal.go `DetermineClearingPrice`. -/
def publicXs (secrets : Nat → Nat → Nat × Nat) (n l : Nat) : List (List Nat) :=
  (List.range n).map fun i => (List.range l).map fun j => utils.PowMod G (secrets i j).1 P

/-- bid-reveal.go `totalProdX[j]`: the product of all `X_kj`. -/
def totalProdX (pubXs : List (List Nat)) (n j : Nat) : Nat :=
  (List.range n).foldl (fun acc i => utils.MulMod acc ((pubXs.getD i []).getD j 0) P) 1

/-- bid-reveal.go `t_ij = DivMod(totalProdX[j], X_ij, P)`, i.e. the product of
all `X_kj` with `k != i` (not the pre/post quotient of part_001). -/
def tij (pubXs : List (List Nat)) (n i j : Nat) : Nat :=
  utils.DivMod (totalProdX pubXs n j) ((pubXs.getD i []).getD j 0) P

/-- The matrix `tijs` built by bid-reveal.go `DetermineClearingPrice`. -/
def tijs (pubXs : List (List Nat)) (n l : Nat) : List (List Nat) :=
  (List.range n).map fun i => (List.range l).map fun j => tij pubXs n i j

/-- bid-reveal.go `HasZeroAtBitPosition` with the `isLostBidder` slice passed
and returned explicitly.  This variant treats `eProduct == 1` as "some active
bidder has a zero bit" -- the comparison is inverted relative to part_000. -/
def HasZeroAtBitPosition (tijs : List (List Nat)) (isLost : List Bool)
    (binaryBids : List (List Nat)) (secrets : Nat → Nat → Nat × Nat) (j : Nat) :
    Bool × List Bool :=
  if binaryBids.length = 0 then (false, isLost)
  else
    let ep := protocol.eProductAt P tijs isLost binaryBids secrets j
    if ep = 1 then (true, protocol.eliminate binaryBids isLost j)
    else (false, isLost)

/-- The round loop of bid-reveal.go `DetermineClearingPrice`. -/
def run (bids : List Nat) (bitLength : Nat) (secrets : Nat → Nat → Nat × Nat) :
    List Nat × List Bool :=
  let n := bids.length
  let binaryBids := bids.map fun b => utils.IntToBits b bitLength
  let pubXs := publicXs secrets n bitLength
  let ts := tijs pubXs n bitLength
  (List.range bitLength).foldl
    (fun acc j =>
      let r := HasZeroAtBitPosition ts acc.2 binaryBids secrets j
      (acc.1 ++ [if r.1 then 0 else 1], r.2))
    ([], List.replicate n false)

/-- bid-reveal.go `DetermineClearingPrice bids bitLength` (randomness
explicit). -/
def DetermineClearingPrice (bids : List Nat) (bitLength : Nat)
    (secrets : Nat → Nat → Nat × Nat) : Nat :=
  if bids.length = 0 then 0
  else utils.BitsToInt (run bids bitLength secrets).1

end V1

/-- A secret assignment with every `x_ij = s_ij = 0` (all values in `[0, q)`). -/
def secretsA : Nat → Nat → Nat × Nat := fun _ _ => (0, 0)

/-- A secret assignment with `(x_0j, s_0j) = (0, 1)` and `(x_ij, s_ij) = (1, 0)`
for `i > 0` (all values in `[0, q)`). -/
def secretsB : Nat → Nat → Nat × Nat := fun i _ => if i = 0 then (0, 1) else (1, 0)

namespace client

/-- Go package `client` `SystemParams` (`g`, `h`, prime order `q`, modulus `p`). -/
structure SystemParams where
  G : Nat
  H : Nat
  Q : Nat
  P : Nat

/-- Go `ZKProofEij`: the 8-tuple `(c1, c2, z1, z2, w, v, a1, a2)`. -/
structure ZKProofEij where
  C1 : Nat
  C2 : Nat
  Z1 : Nat
  Z2 : Nat
  W : Nat
  V : Nat
  A1 : Nat
  A2 : Nat
deriving DecidableEq

/-- Minimal big-endian base-256 digits of `n`, with fuel (`fuel >= n` always
suffices). -/
def bigIntBytesAux : Nat → Nat → List Nat
  | 0, _ => []
  | fuel + 1, n => if n = 0 then [] else bigIntBytesAux fuel (n / 256) ++ [n % 256]

/-- Go `big.Int.Bytes`: minimal big-endian byte encoding (empty for `0`). -/
def bigIntBytes (n : Nat) : List Nat := bigIntBytesAux n n

/-- Go `computeChallenge`: SHA-256 over the concatenation of the byte
encodings of `g, h, C_i, e_ij, a1, a2` and the single byte `byte(j)`
(`j % 256`), reduced mod `q`.  The SHA-256 compression itself is the
parameter `Hf`; nothing below depends on which function it is. -/
def computeChallenge (Hf : List Nat → Nat) (params : SystemParams)
    (Ci e a1 a2 j : Nat) : Nat :=
  Hf (bigIntBytes params.G ++ bigIntBytes params.H ++ bigIntBytes Ci ++
      bigIntBytes e ++ bigIntBytes a1 ++ bigIntBytes a2 ++ [j % 256]) % params.Q

/-- The honest Sigma commitment `a = g^alpha * h^beta mod p` (Go computes it
as `Exp`, `Exp`, `Mul`, `Mod`). -/
def realCommitment (params : SystemParams) (alpha beta : Nat) : Nat :=
  utils.MulMod (utils.PowMod params.G alpha params.P)
    (utils.PowMod params.H beta params.P) params.P

/-- Go local `gwv = g^w * h^v mod p`. -/
def gwv (params : SystemParams) (w v : Nat) : Nat :=
  utils.MulMod (utils.PowMod params.G w params.P)
    (utils.PowMod params.H v params.P) params.P

/-- Go local `eijDivG = e_ij * g^(-1) mod p`. -/
def eijDivG (params : SystemParams) (e : Nat) : Nat :=
  utils.MulMod e (utils.ModInverse params.G params.P) params.P

/-- The simulated commitment of the bit-0 branch of `GenerateZKProofEij`:
`a2 = (g^w * h^v) / (e/g)^(c2) mod p`. -/
def b0a2 (params : SystemParams) (e w v c2 : Nat) : Nat :=
  utils.MulMod (gwv params w v)
    (utils.ModInverse (utils.PowMod (eijDivG params e) c2 params.P) params.P) params.P

/-- The simulated commitment of the bit-1 branch of `GenerateZKProofEij`:
`a1 = (g^w * h^v) / e^(c1) mod p`. -/
def b1a1 (params : SystemParams) (e w v c1 : Nat) : Nat :=
  utils.MulMod (gwv params w v)
    (utils.ModInverse (utils.PowMod e c1 params.P) params.P) params.P

/-- Go `GenerateZKProofEij(params, C_i, e_ij, t_ij, s_ij, b_ij, j)`.  The
blinding scalars `alpha, beta, w, v` and the simulated branch's challenge
`cFake` stand for the five `randBigInt(params.Q)` draws; `(c - cFake) mod q`
is written `(c + q - cFake) % q`, which agrees with Go's Euclidean `Mod` for
the in-range `cFake < q` that `randBigInt` guarantees.  Returns `none`
(Go: `ErrInvalidBitValue`) when the bit is neither 0 nor 1. -/
def GenerateZKProofEij (Hf : List Nat → Nat) (params : SystemParams)
    (Ci e t s : Nat) (b j : Nat) (alpha beta w v cFake : Nat) : Option ZKProofEij :=
  if b = 0 then
    let a1 := realCommitment params alpha beta
    let c2 := cFake
    let a2 := b0a2 params e w v c2
    let c := computeChallenge Hf params Ci e a1 a2 j
    let c1 := (c + params.Q - c2) % params.Q
    some ⟨c1, c2, (c1 * t + alpha) % params.Q, (c1 * s + beta) % params.Q, w, v, a1, a2⟩
  else if b = 1 then
    let c1 := cFake
    let a1 := b1a1 params e w v c1
    let a2 := realCommitment params alpha beta
    let c := computeChallenge Hf params Ci e a1 a2 j
    let c2 := (c + params.Q - c1) % params.Q
    some ⟨c1, c2, (c2 * t + alpha) % params.Q, (c2 * s + beta) % params.Q, w, v, a1, a2⟩
  else none

/-- Go `VerifyZKProofEij(params, C_i, e_ij, proof, j)`: checks
`c1 + c2 = H(...)` mod `q`, then `g^z1 * h^z2 = a1 * e^c1 mod p`, then
`g^w * h^v = a2 * (e/g)^c2 mod p`. -/
def VerifyZKProofEij (Hf : List Nat → Nat) (params : SystemParams)
    (Ci e : Nat) (prf : ZKProofEij) (j : Nat) : Bool :=
  if (prf.C1 + prf.C2) % params.Q ≠ computeChallenge Hf params Ci e prf.A1 prf.A2 j then
    false
  else if utils.MulMod (utils.PowMod params.G prf.Z1 params.P)
      (utils.PowMod params.H prf.Z2 params.P) params.P ≠
      utils.MulMod (utils.PowMod e prf.C1 params.P) prf.A1 params.P then
    false
  else if utils.MulMod (utils.PowMod params.G prf.W params.P)
      (utils.PowMod params.H prf.V params.P) params.P ≠
      utils.MulMod (utils.PowMod (eijDivG params e) prf.C2 params.P) prf.A2 params.P then
    false
  else true

end client

/-- Group parameters for the concrete instances below: `p = 23`, `q = 11`,
`g = 2` and `h = 4` both of order `11` (`2^11 = 2048 = 89*23 + 1`), so the
stated invariants of the claims hold, unlike the Go test fixture's
`g = 5, h = 7`, which have order 22. -/
def testParams : client.SystemParams := ⟨2, 4, 11, 23⟩

/-- A concrete stand-in for the SHA-256 compression over the hashed byte
stream (any function works; this one depends on every byte). -/
def testHash : List Nat → Nat := fun l => l.foldl (fun a b => a * 31 + b) 7

/-- The honest bit-0 value `e = g^t * h^s mod p` for `t = 8`, `s = 6` at the
`testParams` group. -/
def c7e0 : Nat := utils.MulMod (utils.PowMod 2 8 23) (utils.PowMod 4 6 23) 23

/-- The honest bit-1 value `e = g^t * h^s * g mod p` for the same secrets. -/
def c7e1 : Nat := utils.MulMod c7e0 2 23

/-- The honest bit-0 value for `t = 3`, `s = 4` at the `testParams` group. -/
def c8e : Nat := utils.MulMod (utils.PowMod 2 3 23) (utils.PowMod 4 4 23) 23

/-- The concrete generated proof used to witness `C8_position_binding_mod_256`. -/
def c8prf : client.ZKProofEij :=
  (client.GenerateZKProofEij testHash testParams 9 c8e 3 4 0 2 1 2 3 4 5).getD
    ⟨0, 0, 0, 0, 0, 0, 0, 0⟩

theorem utils.powModAux_eq (m : Nat) (fuel : Nat) :
    ∀ b e : Nat, e ≤ fuel → utils.powModAux m b fuel e = b ^ e % m := by
  induction fuel with
  | zero =>
    intro b e he
    have : e = 0 := by omega
    subst this
    simp [utils.powModAux]
  | succ fuel ih =>
    intro b e he
    cases e with
    | zero => simp [utils.powModAux]
    | succ e' =>
      rw [utils.powModAux]
      have hle : (e' + 1) / 2 ≤ fuel := by omega
      rw [ih _ _ hle]
      have hbb : (b * b % m) ^ ((e' + 1) / 2) % m = (b * b) ^ ((e' + 1) / 2) % m :=
        (Nat.pow_mod _ _ _).symm
      rw [hbb]
      rcases Nat.mod_two_eq_zero_or_one (e' + 1) with h2 | h2
      · rw [if_neg (by omega)]
        congr 1
        rw [← pow_two, ← pow_mul]
        congr 1
        omega
      · rw [if_pos h2]
        have heq : e' + 1 = 2 * ((e' + 1) / 2) + 1 := by omega
        conv_rhs => rw [heq]
        rw [pow_succ, pow_mul, pow_two, Nat.mod_mul_mod]

/-- `utils.PowMod` computes exactly what the Go call `Exp(b, e, m)` denotes. -/
theorem utils.PowMod_eq (b e m : Nat) : utils.PowMod b e m = b ^ e % m :=
  utils.powModAux_eq m e b e (Nat.le_refl e)

theorem utils.IntToBits_length (v l : Nat) : (utils.IntToBits v l).length = l := by
  induction l generalizing v with
  | zero => rfl
  | succ l ih => simp [utils.IntToBits, ih]

/-- `utils.IntToBits` only sees the low `l` bits of its argument. -/
theorem utils.IntToBits_mod (v l : Nat) : utils.IntToBits (v % 2 ^ l) l = utils.IntToBits v l := by
  induction l generalizing v with
  | zero => rfl
  | succ l ih =>
    have h2 : v % 2 ^ (l + 1) % 2 = v % 2 := by
      rw [Nat.mod_mod_of_dvd]
      exact dvd_pow_self 2 (Nat.succ_ne_zero l)
    have hdiv : v % 2 ^ (l + 1) / 2 = v / 2 % 2 ^ l := by
      rw [pow_succ', Nat.mod_mul_right_div_self]
    simp only [utils.IntToBits, h2, hdiv, ih]

/-- Claim C10: for every non-negative integer `v` and bit length `l`,
`BitsToInt (IntToBits v l) = v % 2 ^ l`; in particular the pair is an exact
round trip for `v < 2 ^ l`, and higher-order bits are discarded. -/
theorem C10_roundtrip (v l : Nat) :
    utils.BitsToInt (utils.IntToBits v l) = v % 2 ^ l := by
  induction l generalizing v with
  | zero => simp [utils.IntToBits, utils.BitsToInt, Nat.mod_one]
  | succ l ih =>
    have key : utils.BitsToInt (utils.IntToBits (v / 2) l ++ [v % 2]) =
        (if v % 2 = 1 then 2 * utils.BitsToInt (utils.IntToBits (v / 2) l) + 1
         else 2 * utils.BitsToInt (utils.IntToBits (v / 2) l)) := by
      simp [utils.BitsToInt, List.foldl_append]
    have hA : 0 < 2 ^ l := Nat.pos_pow_of_pos l (by omega)
    have hv2 : v % 2 = 0 ∨ v % 2 = 1 := Nat.mod_two_eq_zero_or_one v
    have hsplit : v % 2 ^ (l + 1) = 2 * (v / 2 % 2 ^ l) + v % 2 := by
      have e2 : 2 ^ l * (v / 2 / 2 ^ l) + v / 2 % 2 ^ l = v / 2 :=
        Nat.div_add_mod (v / 2) (2 ^ l)
      have hAlt : v / 2 % 2 ^ l < 2 ^ l := Nat.mod_lt _ hA
      have hlt : 2 * (v / 2 % 2 ^ l) + v % 2 < 2 ^ (l + 1) := by
        have h2 : v % 2 < 2 := Nat.mod_lt v (by omega)
        rw [pow_succ]
        omega
      have e3 : (2 ^ (l + 1)) * (v / 2 / 2 ^ l) = 2 * (2 ^ l * (v / 2 / 2 ^ l)) := by
        rw [pow_succ]
        ring
      calc v % 2 ^ (l + 1)
          = (2 * (v / 2 % 2 ^ l) + v % 2 + 2 ^ (l + 1) * (v / 2 / 2 ^ l)) % 2 ^ (l + 1) := by
            congr 1
            rw [e3]
            omega
        _ = (2 * (v / 2 % 2 ^ l) + v % 2) % 2 ^ (l + 1) := by
            rw [Nat.add_mul_mod_self_left]
        _ = 2 * (v / 2 % 2 ^ l) + v % 2 := Nat.mod_eq_of_lt hlt
    rw [utils.IntToBits, key, ih]
    rcases hv2 with h | h <;> simp [h, hsplit]

theorem natMod_eq_of_zmod (n a b : Nat) (h : ((a : Nat) : ZMod n) = (b : Nat)) :
    a % n = b % n :=
  (ZMod.natCast_eq_natCast_iff a b n).mp h

theorem powMod_one_base (e m : Nat) (hm : 1 < m) : utils.PowMod 1 e m = 1 := by
  rw [utils.PowMod_eq, one_pow, Nat.mod_eq_of_lt hm]

theorem powMod_one_23 (e : Nat) : utils.PowMod 1 e V1.P = 1 :=
  powMod_one_base e 23 (by omega)

theorem mulMod_one_one_23 : utils.MulMod 1 1 V1.P = 1 := rfl

theorem mulMod_one_one_2039 : utils.MulMod 1 1 V2.P = 1 := rfl

theorem powMod_one_2039 (e : Nat) : utils.PowMod 1 e V2.P = 1 :=
  powMod_one_base e 2039 (by omega)

/-- In the single-bidder run of bid-reveal.go, `T = DivMod(X, X, p)` with
`X = 2^x mod 23` is always `1`, because raising a unit to `p - 1 = 22` gives
`1` by Fermat (and `ord(2) = 11` divides `22`). -/
theorem V1_T_one (x : Nat) :
    utils.DivMod (utils.MulMod 1 (utils.PowMod V1.G x V1.P) V1.P)
      (utils.PowMod V1.G x V1.P) V1.P = 1 := by
  show utils.DivMod (utils.MulMod 1 (utils.PowMod 2 x 23) 23) (utils.PowMod 2 x 23) 23 = 1
  simp only [utils.DivMod, utils.MulMod, utils.ModInverse, utils.PowMod_eq]
  have key : 1 * (2 ^ x % 23) % 23 * ((2 ^ x % 23) ^ (23 - 2) % 23) % 23 = 1 % 23 := by
    apply natMod_eq_of_zmod
    have h22 : (2 : ZMod 23) ^ 22 = 1 := by decide
    push_cast [ZMod.natCast_mod]
    rw [one_mul, ← pow_succ', ← pow_mul, Nat.mul_comm x 22, pow_mul, h22, one_pow]
  simpa using key

/-- `ComputeTi` for a single bidder: both partial products are empty, so
every entry is `DivMod 1 1 p = 1`. -/
theorem V2_ComputeTi_single (pubXs : List (List Nat)) (l : Nat) :
    V2.ComputeTi V2.P pubXs 0 1 l = (List.range l).map fun _ => 1 := by
  have h11 : utils.DivMod 1 1 V2.P = 1 := by
    simp [utils.DivMod, utils.MulMod, utils.ModInverse, utils.PowMod_eq, one_pow, V2.P]
  simp [V2.ComputeTi, h11]

/-- Claim C1: `DetermineClearingPrice` is claimed to return the minimum bid
for every non-empty valid bid list.  The code contradicts its own test
`TestAuction` (`bids = [42], bidLength = 6`, expected `42`): for a single
bidder `T_0[j] = 1` at every position, so every round aggregates
`eProduct = 1`, bid-reveal.go declares every clearing bit `0`, and the
function returns `0` whatever values the secret randomness took.  (The
part_000 variant returns `63` on the same input.) -/
theorem C1_single_bidder_returns_zero (secrets : Nat → Nat → Nat × Nat) :
    V1.DetermineClearingPrice [42] 6 secrets = 0 := by
  have hr6 : List.range 6 = [0, 1, 2, 3, 4, 5] := rfl
  have hr1 : List.range 1 = [0] := rfl
  simp [V1.DetermineClearingPrice, V1.run, V1.tijs, V1.tij, V1.totalProdX, V1.publicXs,
    V1.HasZeroAtBitPosition, protocol.eProductAt, protocol.eliminate, hr6, hr1,
    utils.IntToBits, V1_T_one, powMod_one_23, mulMod_one_one_23, utils.BitsToInt, List.getD]

/-- Claim C2: the decision rule is claimed to set `clearingPriceBits[j] = 1`
when the aggregated `E_j` equals `1 mod p`.  bid-reveal.go does the opposite:
on `bids = [42], bitLength = 6` the round-0 aggregate is `1`, yet every
clearing bit (round 0 included) is set to `0`.  (The part_000 variant
implements the claimed rule.) -/
theorem C2_V1_inverts_decision_rule (secrets : Nat → Nat → Nat × Nat) :
    protocol.eProductAt V1.P
      (V1.tijs (V1.publicXs secrets 1 6) 1 6) (List.replicate 1 false)
      ([42].map fun b => utils.IntToBits b 6) secrets 0 = 1 ∧
    (V1.run [42] 6 secrets).1 = [0, 0, 0, 0, 0, 0] := by
  have hr6 : List.range 6 = [0, 1, 2, 3, 4, 5] := rfl
  have hr1 : List.range 1 = [0] := rfl
  constructor
  · simp [V1.tijs, V1.tij, V1.totalProdX, V1.publicXs, protocol.eProductAt, hr6, hr1,
      utils.IntToBits, V1_T_one, powMod_one_23, mulMod_one_one_23, List.getD]
  · simp [V1.run, V1.tijs, V1.tij, V1.totalProdX, V1.publicXs, V1.HasZeroAtBitPosition,
      protocol.eProductAt, protocol.eliminate, hr6, hr1, utils.IntToBits, V1_T_one,
      powMod_one_23, mulMod_one_one_23, List.getD]

/-- Claim C3: the engine is claimed to compute
`T_i[j] = (prod_(k<i) X[k][j]) * inverse(prod_(k>i) X[k][j]) mod p`.
part_001's `ComputeTi` does exactly that, but bid-reveal.go instead computes
`totalProdX[j] / X_ij`, the product over all `k != i`.  With two bidders,
`X[0][0] = 1` and `X[1][0] = 2` (i.e. `x_00 = 0`, `x_10 = 1`, `g = 2`,
`p = 23`), bid-reveal.go produces `T_0[0] = 2` while the claimed formula
(evaluated by `ComputeTi` at the same parameters) gives `12 = 2^(-1) mod 23`. -/
theorem C3_tij_formula_diverges :
    V1.tij [[1], [2]] 2 0 0 = 2 ∧
    V2.ComputeTi V1.P [[1], [2]] 0 2 1 = [12] ∧
    V1.tij [[1], [2]] 2 0 0 ≠ (V2.ComputeTi V1.P [[1], [2]] 0 2 1).getD 0 0 := by
  decide

/-- Claim C5 counterexample: the clearing price is claimed to be independent
of the secret randomness, but on `bids = [0, 1]`, `bitLength = 1` the
part_000 engine returns `1` when all secrets are `0` (every published term is
`1`, so the aggregate is `1` and the zero bit is missed) and `0` under the
draw `secretsB` (the aggregate becomes `9^(-1) mod 2039 != 1`). -/
theorem C5_counterexample :
    V2.DetermineClearingPrice [0, 1] 1 secretsA = 1 ∧
    V2.DetermineClearingPrice [0, 1] 1 secretsB = 0 := by
  decide

/-- Claim C5 (amended): the clearing price is a function of the bids, the bit
length and the drawn secrets, but it is not independent of the secrets: there
are draws with every component in `[0, q)` that yield different results on
the same bids. -/
theorem C5_amended_result_depends_on_secrets :
    ∃ sA sB : Nat → Nat → Nat × Nat,
      (∀ i j, (sA i j).1 < V2.Q ∧ (sA i j).2 < V2.Q) ∧
      (∀ i j, (sB i j).1 < V2.Q ∧ (sB i j).2 < V2.Q) ∧
      V2.DetermineClearingPrice [0, 1] 1 sA ≠ V2.DetermineClearingPrice [0, 1] 1 sB := by
  refine ⟨secretsA, secretsB, ?_, ?_, by decide⟩
  · intro i j
    simp [secretsA, V2.Q]
  · intro i j
    by_cases h : i = 0 <;> simp [secretsB, h, V2.Q]

/-- Claim C6 counterexample: a bid `>= 2^bitLength` is claimed to be rejected
before round 0 and never truncated; in fact `IntToBits` silently keeps the low
`bitLength` bits (`18 = 10010b` becomes `0010b`), no check exists, and the
engine runs to completion on the truncated value, returning the same result
as for the in-range bid `2`. -/
theorem C6_counterexample :
    utils.IntToBits 18 4 = utils.IntToBits 2 4 ∧
    V2.DetermineClearingPrice [18] 4 secretsA = V2.DetermineClearingPrice [2] 4 secretsA := by
  decide

/-- Claim C6 (amended): an out-of-range bid is silently truncated to its low
`bitLength` bits and the protocol is run on the truncated value: the engine's
result on any bid list equals its result on the list reduced mod `2^L`. -/
theorem C6_amended_silent_truncation (bids : List Nat) (l : Nat)
    (secrets : Nat → Nat → Nat × Nat) :
    V2.DetermineClearingPrice (bids.map fun b => b % 2 ^ l) l secrets =
    V2.DetermineClearingPrice bids l secrets := by
  have hbb : (bids.map fun b => b % 2 ^ l).map (fun b => utils.IntToBits b l) =
      bids.map fun b => utils.IntToBits b l := by
    rw [List.map_map]
    exact List.map_congr_left fun a _ => utils.IntToBits_mod a l
  simp only [V2.DetermineClearingPrice, V2.run, List.length_map, hbb]

/-- Claim C4: after a run, exactly the bidders whose bid equals the returned
clearing price are claimed to have `isLost = false`.  On `bids = [42],
bitLength = 6` the part_000 engine returns clearing price `63` while its sole
bidder (bid `42 != 63`) still has `isLost = false`, whatever the secrets. -/
theorem C4_winner_set_wrong (secrets : Nat → Nat → Nat × Nat) :
    V2.DetermineClearingPrice [42] 6 secrets = 63 ∧
    (V2.run [42] 6 secrets).2 = [false] := by
  have hr6 : List.range 6 = [0, 1, 2, 3, 4, 5] := rfl
  have hr1 : List.range 1 = [0] := rfl
  constructor
  · simp [V2.DetermineClearingPrice, V2.run, V2_ComputeTi_single, V2.publicXs,
      V2.HasZeroAtBitPosition, protocol.eProductAt, protocol.eliminate, hr6, hr1,
      utils.IntToBits, powMod_one_2039, mulMod_one_one_2039, utils.BitsToInt, List.getD]
  · simp [V2.run, V2_ComputeTi_single, V2.publicXs, V2.HasZeroAtBitPosition,
      protocol.eProductAt, protocol.eliminate, hr6, hr1, utils.IntToBits,
      powMod_one_2039, mulMod_one_one_2039, List.getD]

/-- One elimination step can only turn `isLost` entries from `false` to
`true`: both branches of `HasZeroAtBitPosition` preserve a `true` flag. -/
theorem hasZero_step_mono (tijs : List (List Nat)) (lost : List Bool)
    (binaryBids : List (List Nat)) (secrets : Nat → Nat → Nat × Nat) (j i : Nat)
    (hi : i < binaryBids.length) (h : lost.getD i false = true) :
    ((V2.HasZeroAtBitPosition tijs lost binaryBids secrets j).2).getD i false = true := by
  unfold V2.HasZeroAtBitPosition
  have hn : ¬ binaryBids.length = 0 := by omega
  rw [if_neg hn]
  by_cases hep : protocol.eProductAt V2.P tijs lost binaryBids secrets j ≠ 1
  · rw [if_pos hep]
    show (protocol.eliminate binaryBids lost j).getD i false = true
    unfold protocol.eliminate
    rw [List.getD_eq_getElem?_getD, List.getElem?_map, List.getElem?_range hi]
    by_cases hb : (binaryBids.getD i []).getD j 0 = 1
    · simp only [List.getD_eq_getElem?_getD] at hb
      simp [hb]
    · simp only [List.getD_eq_getElem?_getD] at hb h
      simp [hb, h]
  · rw [if_neg hep]
    exact h

/-- Unfolding one round of the `isLost` evolution. -/
theorem lostAfter_succ (bids : List Nat) (l : Nat)
    (secrets : Nat → Nat → Nat × Nat) (r : Nat) :
    V2.lostAfter bids l secrets (r + 1) =
      (V2.HasZeroAtBitPosition
        ((List.range bids.length).map fun i =>
          V2.ComputeTi V2.P (V2.publicXs secrets bids.length l) i bids.length l)
        (V2.lostAfter bids l secrets r)
        (bids.map fun b => utils.IntToBits b l) secrets r).2 := by
  unfold V2.lostAfter
  rw [List.range_succ, List.foldl_append]
  rfl

/-- Claim C9: within one run of the part_000 engine each bidder's `isLost`
flag starts `false` and is monotone: if it is `true` after `j1` rounds it is
still `true` after any `j2 >= j1` rounds; no operation resets it. -/
theorem C9_isLost_monotone (bids : List Nat) (l : Nat)
    (secrets : Nat → Nat → Nat × Nat) (i j1 j2 : Nat)
    (h12 : j1 ≤ j2) (hi : i < bids.length)
    (h : (V2.lostAfter bids l secrets j1).getD i false = true) :
    (V2.lostAfter bids l secrets 0).getD i false = false ∧
    (V2.lostAfter bids l secrets j2).getD i false = true := by
  constructor
  · unfold V2.lostAfter
    rcases Nat.lt_or_ge i bids.length with hlt | hge
    · rw [List.getD_eq_getElem?_getD]
      simp [List.getElem?_replicate, hlt]
    · rw [List.getD_eq_getElem?_getD, List.getElem?_eq_none (by simp; omega)]
      rfl
  · obtain ⟨k, rfl⟩ : ∃ k, j2 = j1 + k := ⟨j2 - j1, by omega⟩
    clear h12
    induction k with
    | zero => exact h
    | succ k ih =>
      rw [show j1 + (k + 1) = (j1 + k) + 1 by omega, lostAfter_succ]
      apply hasZero_step_mono
      · rw [List.length_map]
        exact hi
      · exact ih

/-- Witness for `C9_isLost_monotone`: on `bids = [0, 1]`, `bitLength = 1`,
secrets `secretsB`, bidder 1 is eliminated in round 0 and stays eliminated. -/
theorem C9_isLost_monotone_witness :
    (V2.lostAfter [0, 1] 1 secretsB 0).getD 1 false = false ∧
    (V2.lostAfter [0, 1] 1 secretsB 1).getD 1 false = true :=
  C9_isLost_monotone [0, 1] 1 secretsB 1 1 1 (by decide) (by decide) (by decide)

theorem cast_MulMod (p a b : Nat) :
    ((utils.MulMod a b p : Nat) : ZMod p) = (a : ZMod p) * (b : ZMod p) := by
  show (((a * b % p : Nat)) : ZMod p) = _
  rw [ZMod.natCast_mod, Nat.cast_mul]

theorem cast_PowMod (p a e : Nat) :
    ((utils.PowMod a e p : Nat) : ZMod p) = (a : ZMod p) ^ e := by
  rw [utils.PowMod_eq, ZMod.natCast_mod, Nat.cast_pow]

theorem zmod_pow_sub_two_inv {p : Nat} [Fact p.Prime] {a : ZMod p} (ha : a ≠ 0) :
    a ^ (p - 2) = a⁻¹ := by
  have hp2 : 2 ≤ p := (Fact.out : p.Prime).two_le
  have h1 : a ^ (p - 2) * a = 1 := by
    rw [← pow_succ, show p - 2 + 1 = p - 1 by omega]
    exact ZMod.pow_card_sub_one_eq_one ha
  exact eq_inv_of_mul_eq_one_left h1

theorem cast_ModInverse (p b : Nat) [Fact p.Prime] (hb : (b : ZMod p) ≠ 0) :
    ((utils.ModInverse b p : Nat) : ZMod p) = (b : ZMod p)⁻¹ := by
  rw [utils.ModInverse, cast_PowMod]
  exact zmod_pow_sub_two_inv hb

/-- If `x ^ q = 1` then exponents can be reduced mod `q`. -/
theorem pow_mod_exponent {M : Type*} [Monoid M] (x : M) (q e : Nat) (hx : x ^ q = 1) :
    x ^ (e % q) = x ^ e := by
  conv_rhs => rw [← Nat.div_add_mod e q]
  rw [pow_add, pow_mul, hx, one_pow, one_mul]

theorem cast_pow_eq_one {p : Nat} {g q : Nat} (hg : g ^ q % p = 1) :
    (g : ZMod p) ^ q = 1 := by
  have h := congrArg (fun n : Nat => (n : ZMod p)) hg
  simpa [ZMod.natCast_mod, Nat.cast_pow] using h

theorem cast_ne_zero_of_pow_eq_one {p : Nat} [Fact p.Prime] {g q : Nat}
    (hq : 0 < q) (hg : g ^ q % p = 1) : (g : ZMod p) ≠ 0 := by
  intro h0
  have h1 := cast_pow_eq_one (p := p) hg
  rw [h0, zero_pow (by omega : q ≠ 0)] at h1
  exact zero_ne_one h1

/-- The Fiat-Shamir split passes the verifier's sum check:
`((c - c2) mod q + c2) mod q = c` for `c, c2` in range. -/
theorem challenge_sum (q c c2 : Nat) (hc : c < q) (hc2 : c2 < q) :
    ((c + q - c2) % q + c2) % q = c := by
  rw [Nat.mod_add_mod, show c + q - c2 + c2 = c + q by omega, Nat.add_mod_right,
    Nat.mod_eq_of_lt hc]

/-- Equation 1 of the verifier holds for the real bit-0 branch: with
`z1 = alpha + c1*t mod q` and `z2 = beta + c1*s mod q`,
`g^z1 * h^z2 = a1 * e^c1 mod p`, whenever `g` and `h` have order dividing a
positive `q` and `e = g^t * h^s mod p`. -/
theorem b0_eq1 (p q g h e t s alpha beta c1 : Nat) (hp : p.Prime)
    (hgq : g ^ q % p = 1) (hhq : h ^ q % p = 1)
    (he : e = utils.MulMod (utils.PowMod g t p) (utils.PowMod h s p) p) :
    utils.MulMod (utils.PowMod g ((c1 * t + alpha) % q) p)
      (utils.PowMod h ((c1 * s + beta) % q) p) p =
    utils.MulMod (utils.PowMod e c1 p)
      (client.realCommitment ⟨g, h, q, p⟩ alpha beta) p := by
  haveI : Fact p.Prime := ⟨hp⟩
  show (utils.PowMod g ((c1 * t + alpha) % q) p *
      utils.PowMod h ((c1 * s + beta) % q) p) % p =
    (utils.PowMod e c1 p * client.realCommitment ⟨g, h, q, p⟩ alpha beta) % p
  apply natMod_eq_of_zmod
  have he' : (e : ZMod p) = (g : ZMod p) ^ t * (h : ZMod p) ^ s := by
    rw [he, cast_MulMod, cast_PowMod, cast_PowMod]
  simp only [Nat.cast_mul, cast_PowMod, client.realCommitment, cast_MulMod,
    pow_mod_exponent _ q _ (cast_pow_eq_one hgq),
    pow_mod_exponent _ q _ (cast_pow_eq_one hhq), he']
  rw [pow_add, pow_add, mul_pow, ← pow_mul, ← pow_mul, Nat.mul_comm t c1,
    Nat.mul_comm s c1]
  ring

/-- Equation 2 of the verifier holds for the simulated bit-0 branch by
construction: `g^w * h^v = a2 * (e/g)^c2 mod p`, whenever `g` and `e` are
units mod the prime `p`. -/
theorem b0_eq2 (p q g h e w v c2 : Nat) (hp : p.Prime)
    (hg0 : (g : ZMod p) ≠ 0) (he0 : (e : ZMod p) ≠ 0) :
    utils.MulMod (utils.PowMod g w p) (utils.PowMod h v p) p =
    utils.MulMod (utils.PowMod (client.eijDivG ⟨g, h, q, p⟩ e) c2 p)
      (client.b0a2 ⟨g, h, q, p⟩ e w v c2) p := by
  haveI : Fact p.Prime := ⟨hp⟩
  show (utils.PowMod g w p * utils.PowMod h v p) % p =
    (utils.PowMod (client.eijDivG ⟨g, h, q, p⟩ e) c2 p *
      client.b0a2 ⟨g, h, q, p⟩ e w v c2) % p
  apply natMod_eq_of_zmod
  have hD : ((client.eijDivG ⟨g, h, q, p⟩ e : Nat) : ZMod p) =
      (e : ZMod p) * (g : ZMod p)⁻¹ := by
    rw [client.eijDivG, cast_MulMod, cast_ModInverse p g hg0]
  have hDne : ((client.eijDivG ⟨g, h, q, p⟩ e : Nat) : ZMod p) ≠ 0 := by
    rw [hD]
    exact mul_ne_zero he0 (inv_ne_zero hg0)
  have hPowne : ((utils.PowMod (client.eijDivG ⟨g, h, q, p⟩ e) c2 p : Nat) : ZMod p) ≠ 0 := by
    rw [cast_PowMod]
    exact pow_ne_zero _ hDne
  simp only [Nat.cast_mul, client.b0a2, cast_MulMod, client.gwv,
    cast_ModInverse p _ hPowne, cast_PowMod]
  rw [mul_comm (((client.eijDivG ⟨g, h, q, p⟩ e : Nat) : ZMod p) ^ c2), mul_assoc,
    inv_mul_cancel₀ (pow_ne_zero c2 hDne), mul_one]

/-- The verifier accepts exactly when its three checks pass. -/
theorem verify_eq_true (Hf : List Nat → Nat) (params : client.SystemParams)
    (Ci e : Nat) (prf : client.ZKProofEij) (j : Nat)
    (h1 : (prf.C1 + prf.C2) % params.Q =
      client.computeChallenge Hf params Ci e prf.A1 prf.A2 j)
    (h2 : utils.MulMod (utils.PowMod params.G prf.Z1 params.P)
      (utils.PowMod params.H prf.Z2 params.P) params.P =
      utils.MulMod (utils.PowMod e prf.C1 params.P) prf.A1 params.P)
    (h3 : utils.MulMod (utils.PowMod params.G prf.W params.P)
      (utils.PowMod params.H prf.V params.P) params.P =
      utils.MulMod (utils.PowMod (client.eijDivG params e) prf.C2 params.P)
        prf.A2 params.P) :
    client.VerifyZKProofEij Hf params Ci e prf j = true := by
  unfold client.VerifyZKProofEij
  rw [if_neg (by simp [h1]), if_neg (by simp [h2]), if_neg (by simp [h3])]

/-- Completeness of the bit-0 branch: an honestly generated bit-0 proof
verifies at the position it was generated for, whenever `p` is prime, `g` and
`h` have order dividing the positive `q`, the simulated challenge is in
range, and `e = g^t * h^s mod p`. -/
theorem verify_generate_b0 (Hf : List Nat → Nat)
    (g h q p Ci t s j alpha beta w v cFake e : Nat)
    (hp : p.Prime) (hq : 0 < q) (hgq : g ^ q % p = 1) (hhq : h ^ q % p = 1)
    (hc2 : cFake < q)
    (he : e = utils.MulMod (utils.PowMod g t p) (utils.PowMod h s p) p) :
    (client.GenerateZKProofEij Hf ⟨g, h, q, p⟩ Ci e t s 0 j alpha beta w v cFake).map
      (fun prf => client.VerifyZKProofEij Hf ⟨g, h, q, p⟩ Ci e prf j) = some true := by
  haveI : Fact p.Prime := ⟨hp⟩
  have hg0 : (g : ZMod p) ≠ 0 := cast_ne_zero_of_pow_eq_one hq hgq
  have hh0 : (h : ZMod p) ≠ 0 := cast_ne_zero_of_pow_eq_one hq hhq
  have he0 : (e : ZMod p) ≠ 0 := by
    rw [he, cast_MulMod, cast_PowMod, cast_PowMod]
    exact mul_ne_zero (pow_ne_zero _ hg0) (pow_ne_zero _ hh0)
  rw [client.GenerateZKProofEij, if_pos rfl, Option.map_some']
  congr 1
  apply verify_eq_true
  · show ((client.computeChallenge Hf ⟨g, h, q, p⟩ Ci e _ _ j + q - cFake) % q + cFake) % q = _
    exact challenge_sum q _ cFake (Nat.mod_lt _ hq) hc2
  · exact b0_eq1 p q g h e t s alpha beta _ hp hgq hhq he
  · exact b0_eq2 p q g h e w v cFake hp hg0 he0

/-- Claim C8 (amended): for an honestly generated bit-0 proof at position
`j`, verification at position `jp` succeeds exactly when the Fiat-Shamir
challenge recomputed at `jp` coincides with the one at `j`; since only the
single byte `j % 256` enters the hash, every `jp` congruent to `j` mod 256 is
accepted, and a `jp` whose recomputed challenge differs is rejected. -/
theorem C8_position_binding_mod_256 (Hf : List Nat → Nat)
    (g h q p Ci t s j jp alpha beta w v cFake e : Nat) (prf : client.ZKProofEij)
    (hp : p.Prime) (hq : 0 < q) (hgq : g ^ q % p = 1) (hhq : h ^ q % p = 1)
    (hc2 : cFake < q)
    (he : e = utils.MulMod (utils.PowMod g t p) (utils.PowMod h s p) p)
    (hgen : client.GenerateZKProofEij Hf ⟨g, h, q, p⟩ Ci e t s 0 j alpha beta w v cFake =
      some prf) :
    (client.VerifyZKProofEij Hf ⟨g, h, q, p⟩ Ci e prf jp = true ↔
      client.computeChallenge Hf ⟨g, h, q, p⟩ Ci e prf.A1 prf.A2 jp =
        client.computeChallenge Hf ⟨g, h, q, p⟩ Ci e prf.A1 prf.A2 j) := by
  haveI : Fact p.Prime := ⟨hp⟩
  have hg0 : (g : ZMod p) ≠ 0 := cast_ne_zero_of_pow_eq_one hq hgq
  have hh0 : (h : ZMod p) ≠ 0 := cast_ne_zero_of_pow_eq_one hq hhq
  have he0 : (e : ZMod p) ≠ 0 := by
    rw [he, cast_MulMod, cast_PowMod, cast_PowMod]
    exact mul_ne_zero (pow_ne_zero _ hg0) (pow_ne_zero _ hh0)
  rw [client.GenerateZKProofEij, if_pos rfl] at hgen
  obtain rfl := (Option.some.inj hgen).symm
  have hsum : (((client.computeChallenge Hf ⟨g, h, q, p⟩ Ci e
        (client.realCommitment ⟨g, h, q, p⟩ alpha beta)
        (client.b0a2 ⟨g, h, q, p⟩ e w v cFake) j + q - cFake) % q) + cFake) % q =
      client.computeChallenge Hf ⟨g, h, q, p⟩ Ci e
        (client.realCommitment ⟨g, h, q, p⟩ alpha beta)
        (client.b0a2 ⟨g, h, q, p⟩ e w v cFake) j :=
    challenge_sum q _ cFake (Nat.mod_lt _ hq) hc2
  constructor
  · intro hv
    unfold client.VerifyZKProofEij at hv
    by_cases hcc : (((client.computeChallenge Hf ⟨g, h, q, p⟩ Ci e
          (client.realCommitment ⟨g, h, q, p⟩ alpha beta)
          (client.b0a2 ⟨g, h, q, p⟩ e w v cFake) j + q - cFake) % q) + cFake) % q =
        client.computeChallenge Hf ⟨g, h, q, p⟩ Ci e
          (client.realCommitment ⟨g, h, q, p⟩ alpha beta)
          (client.b0a2 ⟨g, h, q, p⟩ e w v cFake) jp
    · show client.computeChallenge Hf ⟨g, h, q, p⟩ Ci e _ _ jp = _
      rw [← hcc, hsum]
    · rw [if_pos (by exact hcc)] at hv
      exact absurd hv (by simp)
  · intro hch
    apply verify_eq_true
    · show (((client.computeChallenge Hf ⟨g, h, q, p⟩ Ci e
          (client.realCommitment ⟨g, h, q, p⟩ alpha beta)
          (client.b0a2 ⟨g, h, q, p⟩ e w v cFake) j + q - cFake) % q) + cFake) % q = _
      rw [hsum, ← hch]
    · exact b0_eq1 p q g h e t s alpha beta _ hp hgq hhq he
    · exact b0_eq2 p q g h e w v cFake hp hg0 he0

/-- Claim C7: completeness is claimed for both bit values, but the generator
stores the real branch's responses in `(Z1, Z2)` and the simulated ones in
`(W, V)` for `bit = 1`, while the verifier always pairs `(Z1, Z2)` with the
bit-0 equation and `(W, V)` with the bit-1 equation.  With order-`q`
generators (`g = 2`, `h = 4`, `p = 23`, `q = 11`, as the claim's invariants
demand), the honestly generated bit-0 proof verifies but the honestly
generated bit-1 proof is rejected, contradicting `TestZKProofEij_Case1`. -/
theorem C7_bit1_completeness_fails :
    (client.GenerateZKProofEij testHash testParams 9 c7e0 8 6 0 3 1 2 3 4 5).map
      (fun prf => client.VerifyZKProofEij testHash testParams 9 c7e0 prf 3) = some true ∧
    (client.GenerateZKProofEij testHash testParams 9 c7e1 8 6 1 3 1 2 3 4 5).map
      (fun prf => client.VerifyZKProofEij testHash testParams 9 c7e1 prf 3) = some false := by
  decide

/-- Claim C8 counterexample: a bit-0 proof generated for position `2`
verifies at the different position `258`, because the challenge hash consumes
only the single byte `byte(position)` and `258 % 256 = 2`. -/
theorem C8_counterexample :
    (258 : Nat) ≠ 2 ∧
    (client.GenerateZKProofEij testHash testParams 9 c8e 3 4 0 2 1 2 3 4 5).map
      (fun prf => client.VerifyZKProofEij testHash testParams 9 c8e prf 258) = some true := by
  decide

/-- Witness for `C8_position_binding_mod_256` at the concrete instance
`j = 2`, `jp = 258`. -/
theorem C8_position_binding_mod_256_witness :
    client.VerifyZKProofEij testHash testParams 9 c8e c8prf 258 = true ↔
      client.computeChallenge testHash testParams 9 c8e c8prf.A1 c8prf.A2 258 =
        client.computeChallenge testHash testParams 9 c8e c8prf.A1 c8prf.A2 2 :=
  C8_position_binding_mod_256 testHash 2 4 11 23 9 3 4 2 258 1 2 3 4 5 c8e c8prf
    (by norm_num) (by decide) (by decide) (by decide) (by decide) rfl rfl
